import Mathlib

/-!
Verification of the pretty_print_braces program
(src/scripts/pretty_print_braces/main module).

The program scans text for curly braces, tracking a running depth, a
per-depth histogram and an indented rendering, then ranks files by a
top-K min-heap keyed on the result tuple.

Shallow embedding conventions:
- Python ints are Int, Python lists are List, Python strings are String
  or List Char; fallible code returns Option (none models a raised
  exception aborting the computation).
- Python negative list indexing (xs[-k] reads from the end, and raises
  IndexError when out of range) is modelled explicitly in
  increment_depth_occurence.
- Note on the source text: the line "if char === '{':" is not valid
  Python (there is no === operator); the evident intent, from the
  adjacent branch "elif char == '}':" and from the worked examples in
  the module docstring, is an equality test, which is what scanStep
  embeds.
- LINE_SEPARATOR is os.linesep, which is a single newline on the Linux
  host this program targets.
-/

/-- INDENT = four spaces (source line 64). -/
def indentUnit : String := "    "

/-- LINE_SEPARATOR = os.linesep, a single newline on Linux (source line 65). -/
def lineSeparator : String := "\n"

/-- Models the Python expression s * n on a string: n repetitions, and a
negative or zero count yields the empty string. -/
def pyRepeat (s : String) (n : Int) : String :=
  String.join (List.replicate n.toNat s)

/-- The inner helper increment_depth_occurence of extract_braces
(source lines 78-82).  In Python, "if d < len(depths): depths[d] += 1"
uses wrap-around indexing for negative d and raises IndexError when
d + len(depths) is still negative; "else: depths.append(1)" appends.
The none result models the IndexError. -/
def increment_depth_occurence (depths : List Nat) (d : Int) : Option (List Nat) :=
  if d < (depths.length : Int) then
    if 0 ≤ d then
      some (depths.set d.toNat (depths.getD d.toNat 0 + 1))
    else if 0 ≤ d + (depths.length : Int) then
      some (depths.set (d + (depths.length : Int)).toNat
        (depths.getD (d + (depths.length : Int)).toNat 0 + 1))
    else
      none
  else
    some (depths ++ [1])

/-- One iteration of the character loop of extract_braces (source lines
84-93).  State is (current_depth, depths, braces).  On an opening brace:
render at the pre-increment depth, increment the depth, then bump the
histogram at the new depth.  On a closing brace: decrement first, then
render at the post-decrement depth.  Other characters are ignored. -/
def scanStep (quiet : Bool) (st : Int × List Nat × List String) (c : Char) :
    Option (Int × List Nat × List String) :=
  let d := st.1
  let ds := st.2.1
  let bs := st.2.2
  if c = '{' then
    let bs1 := if quiet then bs else bs ++ [pyRepeat indentUnit d ++ String.singleton '{']
    let d1 := d + 1
    (increment_depth_occurence ds d1).map (fun ds1 => (d1, ds1, bs1))
  else if c = '}' then
    let d1 := d - 1
    some (d1, ds, if quiet then bs else bs ++ [pyRepeat indentUnit d1 ++ String.singleton '}'])
  else
    some st

/-- The tuple returned by extract_braces: (max_depth, depths[1:],
joined braces, filename). -/
structure AnalysisResult where
  maxDepth : Int
  depths : List Nat
  braces : String
  filename : String
deriving DecidableEq, Repr

/-- extract_braces (source lines 68-95): scan the characters from the
initial state (0, [0], []), then return max_depth = len(depths) - 1,
the histogram without its depth-0 bucket, the rendered lines joined
with the line separator, and the file name. -/
def extract_braces (source_code : List Char) (filename : String) (quiet : Bool) :
    Option AnalysisResult :=
  (source_code.foldlM (scanStep quiet) (0, [0], [])).map fun st =>
    { maxDepth := (st.2.1.length : Int) - 1
      depths := st.2.1.drop 1
      braces := String.intercalate lineSeparator st.2.2
      filename := filename }

/-- ASCII lower-casing of one character, as used by case-insensitive
regex matching (re.I) on ASCII file names. -/
def lowerChar (c : Char) : Char :=
  if 'A' ≤ c ∧ c ≤ 'Z' then Char.ofNat (c.toNat + 32) else c

/-- Lower-case a character list. -/
def lowerStr (s : List Char) : List Char := s.map lowerChar

/-- Models matching the file name against the anchored pattern built on
source line 128, for one alternative e of the alternation: the pattern
demands at least one leading character, then a literal dot, then e at
the very end, compared case-insensitively (re.I).  Extensions are
assumed free of regex metacharacters (the program defaults are
java, cpp, c, h); the file name is assumed free of newlines, so the
end-of-line subtlety of the dollar anchor does not arise. -/
def extMatches (e fname : List Char) : Bool :=
  let lf := lowerStr fname
  let le := lowerStr e
  decide (e.length + 2 ≤ fname.length) &&
    decide (lf.drop (lf.length - (le.length + 1)) = '.' :: le)

/-- file_extension_supported (source lines 128-129): the name matches
some extension of the configured set. -/
def file_extension_supported (file_extensions : List (List Char)) (filename : List Char) : Bool :=
  file_extensions.any (fun e => extMatches e filename)

/-- The matcher as the specification sentence words it: the file name
ends with a literal dot followed by one of the extensions, compared
case-insensitively, with no demand of a character before the dot.
Stated for comparison with file_extension_supported. -/
def specExtMatches (e fname : List Char) : Bool :=
  let lf := lowerStr fname
  let le := lowerStr e
  decide (le.length + 1 ≤ lf.length) &&
    decide (lf.drop (lf.length - (le.length + 1)) = '.' :: le)

/-- The claim-side filter: selected iff the name ends with dot plus
extension, case-insensitively. -/
def specExtensionSelected (file_extensions : List (List Char)) (filename : List Char) : Bool :=
  file_extensions.any (fun e => specExtMatches e filename)

/-!
The ordering key.  The heap elements are the extract_braces tuples
(max_depth, depths, braces, filename); Python orders tuples
lexicographically, integers numerically, lists of integers
lexicographically (a strict prefix sorts first), and strings
lexicographically by character code.  The comparators below embed that
order.
-/

/-- Python comparison of two integers. -/
def cmpInt (a b : Int) : Ordering :=
  if a < b then .lt else if b < a then .gt else .eq

/-- Python comparison of two natural numbers (histogram entries). -/
def cmpNat (a b : Nat) : Ordering :=
  if a < b then .lt else if b < a then .gt else .eq

/-- Python comparison of two characters, by character code. -/
def cmpChar (a b : Char) : Ordering := cmpNat a.toNat b.toNat

/-- Python lexicographic comparison of two lists, given an element
comparator; a strict prefix sorts before the longer list. -/
def cmpList (c : α → α → Ordering) : List α → List α → Ordering
  | [], [] => .eq
  | [], _ :: _ => .lt
  | _ :: _, [] => .gt
  | x :: xs, y :: ys => (c x y).then (cmpList c xs ys)

/-- Python lexicographic comparison of two strings. -/
def cmpStr (a b : String) : Ordering := cmpList cmpChar a.data b.data

/-- Lexicographic comparison of pairs: compare the first components,
and on a tie the second. -/
def cmpPair (ca : α → α → Ordering) (cb : β → β → Ordering) (x y : α × β) : Ordering :=
  (ca x.1 y.1).then (cb x.2 y.2)

/-- The result viewed as the Python tuple
(max_depth, depths, braces, filename). -/
def resultKey (r : AnalysisResult) : Int × List Nat × String × String :=
  (r.maxDepth, r.depths, r.braces, r.filename)

/-- Python comparison of the result tuples: lexicographic over the four
components. -/
def cmpResult (x y : AnalysisResult) : Ordering :=
  cmpPair cmpInt (cmpPair (cmpList cmpNat) (cmpPair cmpStr cmpStr)) (resultKey x) (resultKey y)

/-- Nonstrict order on results: x sorts no later than y. -/
def resLe (x y : AnalysisResult) : Prop := cmpResult x y ≠ .gt

/-- Strict order on results, as the Python less-than on the tuples. -/
def resLt (x y : AnalysisResult) : Prop := cmpResult x y = .lt

instance : DecidableRel resLe := fun x y => by unfold resLe; infer_instance

instance : DecidableRel resLt := fun x y => by unfold resLt; infer_instance

/-- A comparator is lawful when eq implies equality, swapping the
arguments swaps the verdict, and lt is transitive. -/
def LawfulCmp (c : α → α → Ordering) : Prop :=
  (∀ a b, c a b = .eq → a = b) ∧
  (∀ a b, c b a = (c a b).swap) ∧
  (∀ a b e, c a b = .lt → c b e = .lt → c a e = .lt)

/-!
The heap.  Python's heapq maintains a list as a binary min-heap over
the element order and documents exactly these semantics: heappush adds
an element; heappop removes and returns a smallest element; heappushpop
pushes then pops a smallest, which leaves the heap unchanged when the
offered element is no greater than the current minimum (in particular
on an empty heap it returns the offered element and changes nothing).
The model keeps the multiset as a list sorted under resLe, which
realizes the same documented semantics: the head is the minimum.
-/

/-- Models heapq.heappush: add the element to the collection (kept as a
sorted list). -/
def heapqPush (h : List AnalysisResult) (x : AnalysisResult) : List AnalysisResult :=
  List.orderedInsert resLe x h

/-- Models heapq.heappushpop: on a nonempty heap whose minimum is
strictly below the offered element, replace that minimum, otherwise
leave the heap unchanged (the offered element is returned to the
caller, who ignores it). -/
def heapqPushPop (h : List AnalysisResult) (x : AnalysisResult) : List AnalysisResult :=
  match h with
  | [] => []
  | m :: t => if resLt m x then List.orderedInsert resLe x t else m :: t

/-- The heappush wrapper defined inside walk_through_directory (source
lines 120-126): push while below capacity, otherwise push-pop. -/
def heappush (heap_max_size : Int) (h : List AnalysisResult) (x : AnalysisResult) :
    List AnalysisResult :=
  if (h.length : Int) < heap_max_size then heapqPush h x else heapqPushPop h x

/-- Models analyze_file (source lines 98-105): read the content and
scan it.  The file system is abstracted: the content is supplied with
the name, and the claims under study do not involve unreadable files. -/
def analyze_file (filename : String) (content : List Char) (quiet : Bool) :
    Option AnalysisResult :=
  extract_braces content filename quiet

/-- One file of the walk (source lines 133-140): skip the file unless
its name matches an extension, otherwise scan it and offer the result
to the heap.  A scan fault aborts the walk. -/
def walkStep (n : Int) (exts : List (List Char)) (quiet : Bool)
    (h : List AnalysisResult) (f : String × List Char) : Option (List AnalysisResult) :=
  if file_extension_supported exts f.1.data then
    (analyze_file f.1 f.2 quiet).map (heappush n h)
  else
    some h

/-- walk_through_directory (source lines 108-147): fold the files of
the tree through walkStep starting from the empty heap.  The directory
enumeration itself is OS behavior with unspecified order, so the tree
is abstracted to the list of (file name, content) pairs it yields; the
name stands for the joined path. -/
def walk_through_directory (files : List (String × List Char)) (n : Int)
    (file_extensions : List (List Char)) (quiet : Bool) : Option (List AnalysisResult) :=
  files.foldlM (walkStep n file_extensions quiet) []

/-- Pop the heap k times, collecting the minima in order (heapq.heappop
returns the minimum, the head of the sorted-list model). -/
def popN : Nat → List AnalysisResult → List AnalysisResult
  | 0, _ => []
  | _ + 1, [] => []
  | k + 1, m :: t => m :: popN k t

/-- Draining the selector completely, smallest first. -/
def drainAscending (h : List AnalysisResult) : List AnalysisResult :=
  popN h.length h

/-- The sequence of results printed by pretty_print_dir (source lines
203-208): min(len(heap), n) successive heappops. -/
def pretty_print_dir_results (h : List AnalysisResult) (n : Int) : List AnalysisResult :=
  popN (min (h.length : Int) n).toNat h

/-!
Reference definitions used only in claim statements: the depth deltas
of the text, an independent maximum-nesting-depth scanner, and the
nonnegative-depth condition.
-/

/-- The depth change contributed by one character. -/
def depthDelta (c : Char) : Int :=
  if c = '{' then 1 else if c = '}' then -1 else 0

/-- The running depth after the whole text, starting from d. -/
def depthFrom (d : Int) : List Char → Int
  | [] => d
  | c :: cs => depthFrom (d + depthDelta c) cs

/-- The maximum running depth over all stops of the text, starting
from d. -/
def runMax (d : Int) : List Char → Int
  | [] => d
  | c :: cs => max d (runMax (d + depthDelta c) cs)

/-- The independent reference scanner of the specification: the true
maximum nesting depth, the largest number of simultaneously open
delimiters at any stop of the text. -/
def refMaxDepth (src : List Char) : Int := runMax 0 src

/-- The running depth stays nonnegative at every stop of the text,
starting from d. -/
def nonnegFrom (d : Int) : List Char → Bool
  | [] => true
  | c :: cs => decide (0 ≤ d + depthDelta c) && nonnegFrom (d + depthDelta c) cs

lemma lt_then (p : Ordering) : Ordering.lt.then p = .lt := rfl

lemma gt_then (p : Ordering) : Ordering.gt.then p = .gt := rfl

lemma eq_then (p : Ordering) : Ordering.eq.then p = p := rfl


lemma cmpInt_eq_iff (a b : Int) : cmpInt a b = .eq ↔ a = b := by
  unfold cmpInt
  split_ifs <;> simp <;> omega

lemma cmpInt_lt_iff (a b : Int) : cmpInt a b = .lt ↔ a < b := by
  unfold cmpInt
  split_ifs <;> simp <;> omega

lemma cmpInt_swap (a b : Int) : cmpInt b a = (cmpInt a b).swap := by
  unfold cmpInt
  split_ifs <;> simp [Ordering.swap] <;> omega

lemma lawful_cmpInt : LawfulCmp cmpInt :=
  ⟨fun a b h => (cmpInt_eq_iff a b).mp h,
   fun a b => cmpInt_swap a b,
   fun a b e h1 h2 => by
     rw [cmpInt_lt_iff] at h1 h2 ⊢
     omega⟩

lemma cmpNat_eq_iff (a b : Nat) : cmpNat a b = .eq ↔ a = b := by
  unfold cmpNat
  split_ifs <;> simp <;> omega

lemma cmpNat_lt_iff (a b : Nat) : cmpNat a b = .lt ↔ a < b := by
  unfold cmpNat
  split_ifs <;> simp <;> omega

lemma cmpNat_swap (a b : Nat) : cmpNat b a = (cmpNat a b).swap := by
  unfold cmpNat
  split_ifs <;> simp [Ordering.swap] <;> omega

lemma lawful_cmpNat : LawfulCmp cmpNat :=
  ⟨fun a b h => (cmpNat_eq_iff a b).mp h,
   fun a b => cmpNat_swap a b,
   fun a b e h1 h2 => by
     rw [cmpNat_lt_iff] at h1 h2 ⊢
     omega⟩

lemma char_toNat_injective : ∀ a b : Char, a.toNat = b.toNat → a = b := by
  intro a b h
  exact Char.ext (UInt32.ext (by simpa [Char.toNat, UInt32.toNat] using h))

lemma lawful_cmpChar : LawfulCmp cmpChar :=
  ⟨fun a b h => char_toNat_injective a b (lawful_cmpNat.1 _ _ h),
   fun a b => lawful_cmpNat.2.1 _ _,
   fun a b e h1 h2 => lawful_cmpNat.2.2 _ _ _ h1 h2⟩

lemma lawful_cmpList (c : α → α → Ordering) (hc : LawfulCmp c) : LawfulCmp (cmpList c) := by
  obtain ⟨he, hs, ht⟩ := hc
  refine ⟨?_, ?_, ?_⟩
  · intro xs
    induction xs with
    | nil =>
      intro ys h
      cases ys with
      | nil => rfl
      | cons y ys => simp [cmpList] at h
    | cons x xs ih =>
      intro ys h
      cases ys with
      | nil => simp [cmpList] at h
      | cons y ys =>
        unfold cmpList at h
        rcases hxy : c x y with _ | _ | _ <;> rw [hxy] at h
        · rw [lt_then] at h
          exact absurd h (by simp)
        · rw [eq_then] at h
          rw [he _ _ hxy, ih _ h]
        · rw [gt_then] at h
          exact absurd h (by simp)
  · intro xs
    induction xs with
    | nil =>
      intro ys
      cases ys <;> simp [cmpList, Ordering.swap]
    | cons x xs ih =>
      intro ys
      cases ys with
      | nil => simp [cmpList, Ordering.swap]
      | cons y ys =>
        show (c y x).then (cmpList c ys xs) = ((c x y).then (cmpList c xs ys)).swap
        rw [hs x y, ih ys]
        rcases c x y <;> rcases cmpList c xs ys <;>
          simp [Ordering.then, Ordering.swap]
  · intro xs
    induction xs with
    | nil =>
      intro ys zs h1 h2
      cases ys with
      | nil => simp [cmpList] at h1
      | cons y ys =>
        cases zs with
        | nil => simp [cmpList] at h2
        | cons z zs => simp [cmpList]
    | cons x xs ih =>
      intro ys zs h1 h2
      cases ys with
      | nil => simp [cmpList] at h1
      | cons y ys =>
        cases zs with
        | nil => simp [cmpList] at h2
        | cons z zs =>
          unfold cmpList at h1 h2 ⊢
          rcases hxy : c x y with _ | _ | _ <;> rw [hxy] at h1
          · -- c x y = lt
            rcases hyz : c y z with _ | _ | _ <;> rw [hyz] at h2
            · rw [ht _ _ _ hxy hyz, lt_then]
            · rw [he _ _ hyz] at hxy
              rw [hxy, lt_then]
            · rw [gt_then] at h2
              exact absurd h2 (by simp)
          · -- c x y = eq
            rw [eq_then] at h1
            rw [he _ _ hxy]
            rcases hyz : c y z with _ | _ | _ <;> rw [hyz] at h2
            · rw [lt_then]
            · rw [eq_then] at h2
              rw [eq_then]
              exact ih _ _ h1 h2
            · rw [gt_then] at h2
              exact absurd h2 (by simp)
          · rw [gt_then] at h1
            exact absurd h1 (by simp)

lemma lawful_cmpStr : LawfulCmp cmpStr := by
  obtain ⟨he, hs, ht⟩ := lawful_cmpList cmpChar lawful_cmpChar
  refine ⟨?_, fun a b => hs _ _, fun a b e h1 h2 => ht _ _ _ h1 h2⟩
  intro a b h
  cases a
  cases b
  exact congrArg String.mk (he _ _ h)

lemma lawful_cmpPair (ca : α → α → Ordering) (cb : β → β → Ordering)
    (hca : LawfulCmp ca) (hcb : LawfulCmp cb) : LawfulCmp (cmpPair ca cb) := by
  obtain ⟨hae, has, hat⟩ := hca
  obtain ⟨hbe, hbs, hbt⟩ := hcb
  refine ⟨?_, ?_, ?_⟩
  · rintro ⟨a1, a2⟩ ⟨b1, b2⟩ h
    unfold cmpPair at h
    simp only at h
    rcases hab : ca a1 b1 with _ | _ | _ <;> rw [hab] at h
    · rw [lt_then] at h
      exact absurd h (by simp)
    · rw [eq_then] at h
      rw [hae _ _ hab, hbe _ _ h]
    · rw [gt_then] at h
      exact absurd h (by simp)
  · rintro ⟨a1, a2⟩ ⟨b1, b2⟩
    show (ca b1 a1).then (cb b2 a2) = ((ca a1 b1).then (cb a2 b2)).swap
    rw [has a1 b1, hbs a2 b2]
    rcases ca a1 b1 <;> rcases cb a2 b2 <;> simp [Ordering.then, Ordering.swap]
  · rintro ⟨a1, a2⟩ ⟨b1, b2⟩ ⟨c1, c2⟩ h1 h2
    show (ca a1 c1).then (cb a2 c2) = .lt
    replace h1 : (ca a1 b1).then (cb a2 b2) = .lt := h1
    replace h2 : (ca b1 c1).then (cb b2 c2) = .lt := h2
    rcases hab : ca a1 b1 with _ | _ | _ <;> rw [hab] at h1
    · -- first components strictly ordered between a and b
      rcases hbc : ca b1 c1 with _ | _ | _ <;> rw [hbc] at h2
      · rw [hat _ _ _ hab hbc, lt_then]
      · rw [hae _ _ hbc] at hab
        rw [hab, lt_then]
      · rw [gt_then] at h2
        exact absurd h2 (by simp)
    · -- first components tie between a and b
      rw [eq_then] at h1
      rw [hae _ _ hab]
      rcases hbc : ca b1 c1 with _ | _ | _ <;> rw [hbc] at h2
      · rw [lt_then]
      · rw [eq_then] at h2
        rw [eq_then]
        exact hbt _ _ _ h1 h2
      · rw [gt_then] at h2
        exact absurd h2 (by simp)
    · rw [gt_then] at h1
      exact absurd h1 (by simp)

lemma resultKey_injective : ∀ x y : AnalysisResult, resultKey x = resultKey y → x = y := by
  rintro ⟨a1, a2, a3, a4⟩ ⟨b1, b2, b3, b4⟩ h
  simpa [resultKey] using h

lemma lawful_cmpKey :
    LawfulCmp (cmpPair cmpInt (cmpPair (cmpList cmpNat) (cmpPair cmpStr cmpStr))) :=
  lawful_cmpPair _ _ lawful_cmpInt
    (lawful_cmpPair _ _ (lawful_cmpList cmpNat lawful_cmpNat)
      (lawful_cmpPair _ _ lawful_cmpStr lawful_cmpStr))

lemma cmpResult_eq : ∀ x y, cmpResult x y = .eq → x = y := by
  intro x y h
  exact resultKey_injective x y (lawful_cmpKey.1 _ _ h)

lemma cmpResult_swap : ∀ x y, cmpResult y x = (cmpResult x y).swap := by
  intro x y
  exact lawful_cmpKey.2.1 _ _

lemma cmpResult_lt_trans : ∀ x y z, cmpResult x y = .lt → cmpResult y z = .lt →
    cmpResult x z = .lt := by
  intro x y z h1 h2
  exact lawful_cmpKey.2.2 _ _ _ h1 h2

lemma cmpResult_refl (x : AnalysisResult) : cmpResult x x = .eq := by
  have h := cmpResult_swap x x
  rcases hx : cmpResult x x with _ | _ | _
  · rw [hx] at h
    simp [Ordering.swap] at h
  · rfl
  · rw [hx] at h
    simp [Ordering.swap] at h

lemma resLe_refl (x : AnalysisResult) : resLe x x := by
  unfold resLe
  rw [cmpResult_refl]
  simp

lemma resLe_total (x y : AnalysisResult) : resLe x y ∨ resLe y x := by
  unfold resLe
  rw [cmpResult_swap x y]
  rcases cmpResult x y <;> simp [Ordering.swap]

lemma resLe_trans : ∀ x y z : AnalysisResult, resLe x y → resLe y z → resLe x z := by
  intro x y z h1 h2
  unfold resLe at h1 h2 ⊢
  rcases hxy : cmpResult x y with _ | _ | _ <;> rw [hxy] at h1 <;> try exact absurd rfl h1
  · rcases hyz : cmpResult y z with _ | _ | _ <;> rw [hyz] at h2 <;> try exact absurd rfl h2
    · rw [cmpResult_lt_trans _ _ _ hxy hyz]
      simp
    · rw [cmpResult_eq _ _ hyz] at hxy
      rw [hxy]
      simp
  · rw [cmpResult_eq _ _ hxy]
    exact h2

lemma resLt_le {x y : AnalysisResult} (h : resLt x y) : resLe x y := by
  unfold resLt at h
  unfold resLe
  rw [h]
  simp

lemma not_resLt_le {x y : AnalysisResult} (h : ¬ resLt x y) : resLe y x := by
  unfold resLt at h
  unfold resLe
  rw [cmpResult_swap x y]
  rcases hxy : cmpResult x y with _ | _ | _ <;> simp [Ordering.swap]
  exact absurd hxy h

lemma resLe_lt_trans {x y z : AnalysisResult} (h1 : resLe x y) (h2 : resLt y z) : resLe x z :=
  resLe_trans x y z h1 (resLt_le h2)

instance : IsTotal AnalysisResult resLe := ⟨resLe_total⟩

instance : IsTrans AnalysisResult resLe := ⟨resLe_trans⟩

lemma runMax_ge : ∀ (src : List Char) (d : Int), d ≤ runMax d src := by
  intro src
  induction src with
  | nil => intro d; exact le_refl d
  | cons c cs ih =>
    intro d
    exact le_max_left _ _

lemma sum_set_add : ∀ (l : List Nat) (i : Nat), i < l.length →
    (l.set i (l.getD i 0 + 1)).sum = l.sum + 1 := by
  intro l
  induction l with
  | nil => intro i h; simp at h
  | cons x xs ih =>
    intro i h
    cases i with
    | zero => simp [List.sum_cons]; omega
    | succ j =>
      simp only [List.set_cons_succ, List.getD_cons_succ, List.sum_cons]
      rw [ih j (by simpa using h)]
      omega

lemma head?_set_of_pos : ∀ (l : List Nat) (i : Nat) (v : Nat), 1 ≤ i →
    (l.set i v).head? = l.head? := by
  intro l i v h
  cases l with
  | nil => simp
  | cons x xs =>
    cases i with
    | zero => omega
    | succ j => simp

lemma head?_append_of_ne_nil : ∀ (l t : List Nat), l ≠ [] → (l ++ t).head? = l.head? := by
  intro l t h
  cases l with
  | nil => exact absurd rfl h
  | cons x xs => simp

/-- Core invariant of the scan loop on nonnegative-depth runs: the scan
completes, the final depth is the sum of the deltas, the histogram
length tracks one plus the maximum depth reached, its total grows by
the number of opening braces, and its depth-0 bucket is untouched. -/
lemma scan_run (quiet : Bool) : ∀ (src : List Char) (d : Int) (ds : List Nat) (bs : List String),
    0 ≤ d → d < (ds.length : Int) → nonnegFrom d src = true →
    ∃ ds1 bs1, src.foldlM (scanStep quiet) (d, ds, bs) = some (depthFrom d src, ds1, bs1) ∧
      (ds1.length : Int) = max (ds.length : Int) (runMax d src + 1) ∧
      ds1.sum = ds.sum + src.count '{' ∧
      ds1.head? = ds.head? := by
  intro src
  induction src with
  | nil =>
    intro d ds bs hd hlen _
    refine ⟨ds, bs, ?_, ?_, by simp, rfl⟩
    · simp [depthFrom]
    · simp only [runMax]
      omega
  | cons c cs ih =>
    intro d ds bs hd hlen hnn
    simp only [nonnegFrom, Bool.and_eq_true, decide_eq_true_eq] at hnn
    obtain ⟨hstep, hrest⟩ := hnn
    simp only [List.foldlM_cons]
    by_cases hc1 : c = '{'
    · subst hc1
      have hdelta : depthDelta '{' = 1 := rfl
      rw [hdelta] at hstep hrest
      by_cases hlt : d + 1 < (ds.length : Int)
      · -- histogram bucket for the new depth exists already
        have hidx : (d + 1).toNat < ds.length := by omega
        have hinc : increment_depth_occurence ds (d + 1) =
            some (ds.set (d + 1).toNat (ds.getD (d + 1).toNat 0 + 1)) := by
          unfold increment_depth_occurence
          rw [if_pos hlt, if_pos (by omega : (0 : Int) ≤ d + 1)]
        obtain ⟨ds1, bs1, heq, hlen1, hsum1, hhead1⟩ :=
          ih (d + 1) (ds.set (d + 1).toNat (ds.getD (d + 1).toNat 0 + 1))
            (if quiet then bs else bs ++ [pyRepeat indentUnit d ++ String.singleton '{'])
            (by omega) (by simpa using hlt) hrest
        refine ⟨ds1, bs1, ?_, ?_, ?_, ?_⟩
        · have hgoal : depthFrom d ('{' :: cs) = depthFrom (d + 1) cs := by
            simp [depthFrom, hdelta]
          rw [hgoal]
          simpa [scanStep, hinc] using heq
        · rw [hlen1]
          have hge := runMax_ge cs (d + 1)
          simp only [runMax, hdelta, List.length_set]
          omega
        · rw [hsum1, sum_set_add ds (d + 1).toNat hidx]
          simp only [List.count_cons, beq_self_eq_true, if_true]
          omega
        · rw [hhead1, head?_set_of_pos ds (d + 1).toNat _ (by omega)]
      · -- append a fresh bucket: the new depth equals the histogram length
        have hinc : increment_depth_occurence ds (d + 1) = some (ds ++ [1]) := by
          unfold increment_depth_occurence
          rw [if_neg hlt]
        have hlen' : ((ds ++ [1]).length : Int) = (ds.length : Int) + 1 := by simp
        obtain ⟨ds1, bs1, heq, hlen1, hsum1, hhead1⟩ :=
          ih (d + 1) (ds ++ [1])
            (if quiet then bs else bs ++ [pyRepeat indentUnit d ++ String.singleton '{'])
            (by omega) (by omega) hrest
        refine ⟨ds1, bs1, ?_, ?_, ?_, ?_⟩
        · have hgoal : depthFrom d ('{' :: cs) = depthFrom (d + 1) cs := by
            simp [depthFrom, hdelta]
          rw [hgoal]
          simpa [scanStep, hinc] using heq
        · rw [hlen1, hlen']
          have hge := runMax_ge cs (d + 1)
          simp only [runMax, hdelta]
          omega
        · rw [hsum1]
          simp only [List.sum_append, List.sum_cons, List.sum_nil, List.count_cons,
            beq_self_eq_true, if_true]
          omega
        · rw [hhead1, head?_append_of_ne_nil ds [1] (by
            intro hnil
            rw [hnil] at hlen
            simp at hlen
            omega)]
    · by_cases hc2 : c = '}'
      · subst hc2
        have hdelta : depthDelta '}' = -1 := rfl
        rw [hdelta] at hstep hrest
        obtain ⟨ds1, bs1, heq, hlen1, hsum1, hhead1⟩ :=
          ih (d - 1) ds
            (if quiet then bs else bs ++ [pyRepeat indentUnit (d - 1) ++ String.singleton '}'])
            (by omega) (by omega) (by
              have : d + -1 = d - 1 := by omega
              rwa [this] at hrest)
        refine ⟨ds1, bs1, ?_, ?_, ?_, hhead1⟩
        · have hne : ('}' : Char) ≠ '{' := by decide
          have e1 : d + -1 = d - 1 := by omega
          have hgoal : depthFrom d ('}' :: cs) = depthFrom (d - 1) cs := by
            simp [depthFrom, hdelta, e1]
          rw [hgoal]
          simpa [scanStep, hne] using heq
        · rw [hlen1]
          have hge := runMax_ge cs (d + -1)
          simp only [runMax, hdelta]
          have : d + -1 = d - 1 := by omega
          rw [this] at hge ⊢
          omega
        · rw [hsum1]
          have hne : ('}' : Char) ≠ '{' := by decide
          simp [List.count_cons, hne]
      · have hdelta : depthDelta c = 0 := by
          unfold depthDelta
          rw [if_neg hc1, if_neg hc2]
        rw [hdelta] at hstep hrest
        obtain ⟨ds1, bs1, heq, hlen1, hsum1, hhead1⟩ :=
          ih d ds bs hd hlen (by
            have : d + 0 = d := by omega
            rwa [this] at hrest)
        refine ⟨ds1, bs1, ?_, ?_, ?_, hhead1⟩
        · have e1 : d + 0 = d := by omega
          have hgoal : depthFrom d (c :: cs) = depthFrom d cs := by
            simp [depthFrom, hdelta, e1]
          rw [hgoal]
          simpa [scanStep, hc1, hc2] using heq
        · rw [hlen1]
          have hge := runMax_ge cs (d + 0)
          simp only [runMax, hdelta]
          have : d + 0 = d := by omega
          rw [this] at hge ⊢
          omega
        · rw [hsum1]
          have hbeq : (c == '{') = false := by
            simp [hc1]
          simp [List.count_cons, hbeq]

lemma increment_ne_nil : ∀ (ds : List Nat) (d : Int) (ds1 : List Nat),
    increment_depth_occurence ds d = some ds1 → ds ≠ [] → ds1 ≠ [] := by
  intro ds d ds1 h hne
  unfold increment_depth_occurence at h
  split_ifs at h
  · injection h with h1
    rw [← h1]
    simpa using hne
  · injection h with h1
    rw [← h1]
    simpa using hne
  · injection h with h1
    rw [← h1]
    simp

lemma scanStep_ne_nil (quiet : Bool) (st : Int × List Nat × List String) (c : Char)
    (st1 : Int × List Nat × List String) (h : scanStep quiet st c = some st1)
    (hne : st.2.1 ≠ []) : st1.2.1 ≠ [] := by
  obtain ⟨d, ds, bs⟩ := st
  simp only [scanStep] at h
  by_cases hc1 : c = '{'
  · rw [if_pos hc1] at h
    cases hinc : increment_depth_occurence ds (d + 1) with
    | none =>
      rw [hinc] at h
      simp at h
    | some ds1 =>
      rw [hinc] at h
      simp only [Option.map_some'] at h
      injection h with h3
      rw [← h3]
      exact increment_ne_nil ds (d + 1) ds1 hinc hne
  · rw [if_neg hc1] at h
    by_cases hc2 : c = '}'
    · rw [if_pos hc2] at h
      injection h with h3
      rw [← h3]
      exact hne
    · rw [if_neg hc2] at h
      injection h with h3
      rw [← h3]
      exact hne

lemma scan_ne_nil (quiet : Bool) : ∀ (src : List Char) (st st1 : Int × List Nat × List String),
    src.foldlM (scanStep quiet) st = some st1 → st.2.1 ≠ [] → st1.2.1 ≠ [] := by
  intro src
  induction src with
  | nil =>
    intro st st1 h hne
    simp only [List.foldlM_nil] at h
    injection h with h1
    rw [← h1]
    exact hne
  | cons c cs ih =>
    intro st st1 h hne
    simp only [List.foldlM_cons] at h
    cases hstep : scanStep quiet st c with
    | none =>
      rw [hstep] at h
      simp at h
    | some st2 =>
      rw [hstep] at h
      simp only [Option.bind_eq_bind, Option.some_bind] at h
      exact ih st2 st1 h (scanStep_ne_nil quiet st c st2 hstep hne)

/-- The quiet scan tracks the verbose scan exactly on the depth and the
histogram, and never touches its line buffer. -/
lemma scan_quiet_rel : ∀ (src : List Char) (d : Int) (ds : List Nat) (bsT bsF : List String),
    src.foldlM (scanStep true) (d, ds, bsT) =
      (src.foldlM (scanStep false) (d, ds, bsF)).map (fun st => (st.1, st.2.1, bsT)) := by
  intro src
  induction src with
  | nil =>
    intro d ds bsT bsF
    simp
  | cons c cs ih =>
    intro d ds bsT bsF
    simp only [List.foldlM_cons]
    by_cases hc1 : c = '{'
    · subst hc1
      cases hinc : increment_depth_occurence ds (d + 1) with
      | none => simp [scanStep, hinc]
      | some ds1 =>
        simp only [scanStep, hinc, Option.map_some', if_true, ite_true, if_pos rfl,
          Option.bind_eq_bind, Option.some_bind]
        exact ih (d + 1) ds1 bsT _
    · by_cases hc2 : c = '}'
      · subst hc2
        simp only [scanStep, if_neg hc1, if_pos rfl, if_true, ite_true,
          Option.bind_eq_bind, Option.some_bind]
        exact ih (d - 1) ds bsT _
      · simp only [scanStep, if_neg hc1, if_neg hc2, Option.bind_eq_bind, Option.some_bind]
        exact ih d ds bsT bsF

lemma sum_drop_one_of_head_zero : ∀ (l : List Nat), l.head? = some 0 →
    (l.drop 1).sum = l.sum := by
  intro l h
  cases l with
  | nil => simp at h
  | cons a t =>
    simp only [List.head?_cons, Option.some.injEq] at h
    simp [h]

/-- C1 counterexample: the text of one closing then one opening brace
has one opening delimiter, which is entered (the depth rises from -1 to
0), yet the returned depthCounts sum to 0: the open lands in the
excluded depth-0 bucket. -/
theorem sum_depthCounts_counterexample :
    (extract_braces [ '}', '{' ] "f" false).map (fun r => r.depths.sum) = some 0 ∧
      ([ '}', '{' ] : List Char).count '{' = 1 := by
  constructor
  · rfl
  · rfl

/-- C1 amended: when the running depth never goes negative, the sum of
the returned depthCounts equals the total number of opening delimiters
of the text; with excess closing delimiters, opening delimiters entered
at depth zero or below are dropped from or wrongly added to the
histogram. -/
theorem sum_depthCounts_eq_opens_of_nonneg (src : List Char) (fn : String) (q : Bool)
    (h : nonnegFrom 0 src = true) :
    (extract_braces src fn q).map (fun r => r.depths.sum) = some (src.count '{') := by
  obtain ⟨ds1, bs1, heq, hlen, hsum, hhead⟩ :=
    scan_run q src 0 [0] [] (le_refl 0) (by simp) h
  unfold extract_braces
  rw [heq]
  simp only [Option.map_some']
  congr 1
  rw [sum_drop_one_of_head_zero ds1 (by simpa using hhead)]
  simpa using hsum

/-- C1 amended, witness at the text of two opening and two closing
braces in sequence. -/
theorem sum_depthCounts_eq_opens_of_nonneg_witness :
    nonnegFrom 0 [ '{', '}', '{', '}' ] = true ∧
      (extract_braces [ '{', '}', '{', '}' ] "f" false).map (fun r => r.depths.sum) =
        some (([ '{', '}', '{', '}' ] : List Char).count '{') :=
  ⟨by decide, sum_depthCounts_eq_opens_of_nonneg [ '{', '}', '{', '}' ] "f" false (by decide)⟩

/-- C3: for a text whose opening and closing delimiter counts agree and
whose running depth never goes negative, the scan returns, the
depthCounts sum to the number of opening delimiters, and maxDepth
equals the maximum nesting depth of the independent reference scanner
refMaxDepth. -/
theorem scan_balanced_sum_and_maxDepth (src : List Char) (fn : String) (q : Bool)
    (hbal : src.count '{' = src.count '}') (hnn : nonnegFrom 0 src = true) :
    (extract_braces src fn q).map (fun r => (r.depths.sum, r.maxDepth)) =
      some (src.count '{', refMaxDepth src) := by
  obtain ⟨ds1, bs1, heq, hlen, hsum, hhead⟩ :=
    scan_run q src 0 [0] [] (le_refl 0) (by simp) hnn
  unfold extract_braces
  rw [heq]
  simp only [Option.map_some']
  congr 1
  refine Prod.ext ?_ ?_
  · show (ds1.drop 1).sum = src.count '{'
    rw [sum_drop_one_of_head_zero ds1 (by simpa using hhead)]
    simpa using hsum
  · show (ds1.length : Int) - 1 = refMaxDepth src
    have hge := runMax_ge src 0
    unfold refMaxDepth
    simp only [List.length_cons, List.length_nil] at hlen
    omega

/-- C3 witness at the text of two nested brace pairs. -/
theorem scan_balanced_sum_and_maxDepth_witness :
    (([ '{', '{', '}', '}' ] : List Char).count '{' =
        ([ '{', '{', '}', '}' ] : List Char).count '}' ∧
      nonnegFrom 0 [ '{', '{', '}', '}' ] = true) ∧
      (extract_braces [ '{', '{', '}', '}' ] "f" false).map (fun r => (r.depths.sum, r.maxDepth)) =
        some (([ '{', '{', '}', '}' ] : List Char).count '{', refMaxDepth [ '{', '{', '}', '}' ]) :=
  ⟨⟨by decide, by decide⟩,
    scan_balanced_sum_and_maxDepth [ '{', '{', '}', '}' ] "f" false (by decide) (by decide)⟩

/-- C7: on the text of three closing braces then one opening brace the
scan does not complete: the histogram update indexes the one-element
list at position -2 and the Python IndexError aborts extract_braces,
although the claim promises fault-free degradation on unbalanced
input. -/
theorem scan_unbalanced_index_fault :
    extract_braces [ '}', '}', '}', '{' ] "f" false = none := by
  rfl

/-- C8: scanning with rendering suppressed returns exactly the verbose
result with its renderedStructure emptied: same maxDepth, same
depthCounts, same fault behavior, empty braces text. -/
theorem scan_quiet_refines_verbose (src : List Char) (fn : String) :
    extract_braces src fn true =
      (extract_braces src fn false).map (fun r => { r with braces := "" }) := by
  unfold extract_braces
  rw [scan_quiet_rel src 0 [0] [] []]
  cases hfold : src.foldlM (scanStep false) (0, [0], []) with
  | none => simp
  | some st =>
    simp only [Option.map_some']
    rfl

/-- C9: every AnalysisResult that extract_braces returns satisfies
depthCounts.length = maxDepth, for every text, quiet or not. -/
theorem depthCounts_length_eq_maxDepth (src : List Char) (fn : String) (q : Bool)
    (r : AnalysisResult) (h : extract_braces src fn q = some r) :
    (r.depths.length : Int) = r.maxDepth := by
  unfold extract_braces at h
  cases hfold : src.foldlM (scanStep q) (0, [0], []) with
  | none =>
    rw [hfold] at h
    simp at h
  | some st =>
    rw [hfold] at h
    simp only [Option.map_some'] at h
    have hne : st.2.1 ≠ [] := scan_ne_nil q src (0, [0], []) st hfold (by simp)
    have hpos : 1 ≤ st.2.1.length := List.length_pos.mpr hne
    injection h with h1
    rw [← h1]
    simp only [List.length_drop]
    omega

/-- C9 witness at the text of one brace pair, quiet mode. -/
theorem depthCounts_length_eq_maxDepth_witness :
    extract_braces [ '{', '}' ] "f" true =
        some { maxDepth := 1, depths := [1], braces := "", filename := "f" } ∧
      ((({ maxDepth := 1, depths := [1], braces := "", filename := "f" } :
          AnalysisResult).depths.length : Int) =
        ({ maxDepth := 1, depths := [1], braces := "", filename := "f" } :
          AnalysisResult).maxDepth) :=
  ⟨by rfl, depthCounts_length_eq_maxDepth [ '{', '}' ] "f" true _ (by rfl)⟩

lemma resLt_irrefl (x : AnalysisResult) : ¬ resLt x x := by
  unfold resLt
  rw [cmpResult_refl]
  simp

lemma resLt_ne {m y : AnalysisResult} (h : resLt m y) : m ≠ y := by
  intro e
  rw [e] at h
  exact resLt_irrefl y h

lemma subperm_cons_both {α : Type _} {l₁ l₂ : List α} (y : α) (h : List.Subperm l₁ l₂) :
    List.Subperm (y :: l₁) (y :: l₂) := by
  obtain ⟨l, hp, hsl⟩ := h
  exact ⟨y :: l, hp.cons y, hsl.cons₂ y⟩

lemma subperm_append_singleton {α : Type _} {l₁ l₂ : List α} (y : α)
    (h : List.Subperm (y :: l₁) (y :: l₂)) :
    List.Subperm (y :: l₁) (l₂ ++ [y]) :=
  h.trans (List.perm_append_singleton y l₂).symm.subperm

lemma sorted_head_le {m : AnalysisResult} {t : List AnalysisResult}
    (hs : List.Sorted resLe (m :: t)) : ∀ r ∈ m :: t, resLe m r := by
  intro r hr
  rcases List.mem_cons.mp hr with h | h
  · rw [h]
    exact resLe_refl m
  · exact List.rel_of_sorted_cons hs r h

lemma sorted_heappush (K : Int) (h : List AnalysisResult) (x : AnalysisResult)
    (hs : List.Sorted resLe h) : List.Sorted resLe (heappush K h x) := by
  unfold heappush
  split_ifs
  · exact hs.orderedInsert x h
  · cases h with
    | nil =>
      simp only [heapqPushPop]
      exact List.sorted_nil
    | cons m t =>
      simp only [heapqPushPop]
      split_ifs
      · exact (hs.of_cons).orderedInsert x t
      · exact hs

lemma length_heappush (K : Int) (h : List AnalysisResult) (x : AnalysisResult) :
    (heappush K h x).length = if (h.length : Int) < K then h.length + 1 else h.length := by
  unfold heappush
  split_ifs with h1
  · simp [heapqPush, List.orderedInsert_length]
  · cases h with
    | nil => rfl
    | cons m t =>
      simp only [heapqPushPop]
      split_ifs
      · simp [List.orderedInsert_length]
      · rfl

/-- One offer preserves the selector invariant: sortedness, size
min(K, offers so far), containment in the offered multiset, and every
offered-but-not-retained element sorting no later than every retained
element. -/
lemma heappush_step_inv (K : Int) (hK : 1 ≤ K) (h seen : List AnalysisResult)
    (y : AnalysisResult)
    (hs : List.Sorted resLe h)
    (hlen : (h.length : Int) = min K (seen.length : Int))
    (hsub : List.Subperm h seen)
    (hdef : ∀ x, h.count x < seen.count x → ∀ r ∈ h, resLe x r) :
    List.Sorted resLe (heappush K h y) ∧
      ((heappush K h y).length : Int) = min K ((seen ++ [y]).length : Int) ∧
      List.Subperm (heappush K h y) (seen ++ [y]) ∧
      (∀ x, (heappush K h y).count x < (seen ++ [y]).count x →
        ∀ r ∈ heappush K h y, resLe x r) := by
  refine ⟨sorted_heappush K h y hs, ?_, ?_, ?_⟩
  · rw [length_heappush]
    split_ifs with h1
    · simp only [List.length_append, List.length_cons, List.length_nil]
      omega
    · simp only [List.length_append, List.length_cons, List.length_nil]
      omega
  · by_cases h1 : (h.length : Int) < K
    · rw [show heappush K h y = heapqPush h y from if_pos h1]
      unfold heapqPush
      exact ((List.perm_orderedInsert resLe y h).subperm).trans
        (subperm_append_singleton y (subperm_cons_both y hsub))
    · rw [show heappush K h y = heapqPushPop h y from if_neg h1]
      cases h with
      | nil =>
        exact List.nil_subperm
      | cons m t =>
        simp only [heapqPushPop]
        split_ifs
        · have ht : List.Subperm t seen := (List.sublist_cons_self m t).subperm.trans hsub
          exact ((List.perm_orderedInsert resLe y t).subperm).trans
            (subperm_append_singleton y (subperm_cons_both y ht))
        · exact hsub.trans (List.sublist_append_left seen [y]).subperm
  · by_cases h1 : (h.length : Int) < K
    · -- below capacity: the heap is a permutation of everything seen
      have hperm : List.Perm h seen := hsub.perm_of_length_le (by omega)
      rw [show heappush K h y = heapqPush h y from if_pos h1]
      unfold heapqPush
      intro x hx r hr
      exfalso
      have hc1 : (List.orderedInsert resLe y h).count x = (y :: h).count x :=
        (List.perm_orderedInsert resLe y h).count_eq x
      have hc2 : h.count x = seen.count x := hperm.count_eq x
      rw [hc1] at hx
      simp only [List.count_cons, List.count_append, List.count_cons, List.count_nil] at hx
      omega
    · rw [show heappush K h y = heapqPushPop h y from if_neg h1]
      cases h with
      | nil =>
        exfalso
        simp only [List.length_nil, Nat.cast_zero] at h1
        omega
      | cons m t =>
        have hhead := sorted_head_le hs
        simp only [heapqPushPop]
        split_ifs with hmy
        · -- the minimum is evicted
          intro x hx r hr
          have hcount : (List.orderedInsert resLe y t).count x = (y :: t).count x :=
            (List.perm_orderedInsert resLe y t).count_eq x
          have hmem : r ∈ y :: t := ((List.perm_orderedInsert resLe y t).mem_iff).mp hr
          rw [hcount] at hx
          by_cases hxold : (m :: t).count x < seen.count x
          · have hall := hdef x hxold
            rcases List.mem_cons.mp hmem with h2 | h2
            · rw [h2]
              exact resLe_trans x m y (hall m (List.mem_cons_self m t)) (resLt_le hmy)
            · exact hall r (List.mem_cons_of_mem m h2)
          · by_cases hxy : x = y
            · exfalso
              subst hxy
              have hbm : (m == x) = false := by
                simpa using resLt_ne hmy
              have e1 : List.count x (m :: t) = List.count x t := by
                simp [List.count_cons, hbm]
              have e2 : List.count x (x :: t) = List.count x t + 1 := by
                simp
              have e3 : List.count x (seen ++ [x]) = List.count x seen + 1 := by
                simp
              omega
            · have hby : (y == x) = false := by
                simpa using fun e => hxy e.symm
              have e3 : List.count x (seen ++ [y]) = List.count x seen := by
                simp [List.count_cons, hby]
              have e2 : List.count x (y :: t) = List.count x t := by
                simp [List.count_cons, hby]
              have hm : m = x := by
                by_contra hmx
                have hbm : (m == x) = false := by
                  simpa using fun e => hmx e
                have e1 : List.count x (m :: t) = List.count x t := by
                  simp [List.count_cons, hbm]
                omega
              rw [← hm]
              rcases List.mem_cons.mp hmem with h2 | h2
              · rw [h2]
                exact resLt_le hmy
              · exact hhead r (List.mem_cons_of_mem m h2)
        · -- the offer is discarded
          intro x hx r hr
          by_cases hxy : x = y
          · rw [hxy]
            exact resLe_trans y m r (not_resLt_le hmy) (hhead r hr)
          · have hby : (y == x) = false := by
              simpa using fun e => hxy e.symm
            have e3 : List.count x (seen ++ [y]) = List.count x seen := by
              simp [List.count_cons, hby]
            rw [e3] at hx
            exact hdef x hx r hr

/-- The selector invariant holds after any sequence of offers folded
onto a state that satisfies it. -/
lemma selector_fold_inv (K : Int) (hK : 1 ≤ K) :
    ∀ (offers h seen : List AnalysisResult),
    List.Sorted resLe h →
    (h.length : Int) = min K (seen.length : Int) →
    List.Subperm h seen →
    (∀ x, h.count x < seen.count x → ∀ r ∈ h, resLe x r) →
    List.Sorted resLe (offers.foldl (heappush K) h) ∧
      ((offers.foldl (heappush K) h).length : Int) =
        min K ((seen ++ offers).length : Int) ∧
      List.Subperm (offers.foldl (heappush K) h) (seen ++ offers) ∧
      (∀ x, (offers.foldl (heappush K) h).count x < (seen ++ offers).count x →
        ∀ r ∈ offers.foldl (heappush K) h, resLe x r) := by
  intro offers
  induction offers with
  | nil =>
    intro h seen hs hlen hsub hdef
    simpa using ⟨hs, hlen, hsub, hdef⟩
  | cons y os ih =>
    intro h seen hs hlen hsub hdef
    obtain ⟨hs1, hlen1, hsub1, hdef1⟩ := heappush_step_inv K hK h seen y hs hlen hsub hdef
    have := ih (heappush K h y) (seen ++ [y]) hs1 hlen1 hsub1 hdef1
    simpa [List.append_assoc] using this

lemma popN_length_self : ∀ (h : List AnalysisResult), popN h.length h = h := by
  intro h
  induction h with
  | nil => rfl
  | cons m t ih =>
    simp only [List.length_cons, popN]
    rw [ih]

lemma walk_fold_inv (n : Int) (exts : List (List Char)) (quiet : Bool) :
    ∀ (files : List (String × List Char)) (h : List AnalysisResult),
    List.Sorted resLe h → (h.length : Int) ≤ max n 0 →
    ∀ h1, files.foldlM (walkStep n exts quiet) h = some h1 →
    List.Sorted resLe h1 ∧ (h1.length : Int) ≤ max n 0 := by
  intro files
  induction files with
  | nil =>
    intro h hs hl h1 hh
    simp only [List.foldlM_nil] at hh
    injection hh with e
    rw [← e]
    exact ⟨hs, hl⟩
  | cons f fs ih =>
    intro h hs hl h1 hh
    simp only [List.foldlM_cons] at hh
    cases hstep : walkStep n exts quiet h f with
    | none =>
      rw [hstep] at hh
      simp at hh
    | some h2 =>
      rw [hstep] at hh
      simp only [Option.bind_eq_bind, Option.some_bind] at hh
      have hinv : List.Sorted resLe h2 ∧ (h2.length : Int) ≤ max n 0 := by
        unfold walkStep at hstep
        split_ifs at hstep
        · cases hana : analyze_file f.1 f.2 quiet with
          | none =>
            rw [hana] at hstep
            simp at hstep
          | some r =>
            rw [hana] at hstep
            simp only [Option.map_some'] at hstep
            injection hstep with e
            rw [← e]
            refine ⟨sorted_heappush n h r hs, ?_⟩
            rw [length_heappush]
            split_ifs with h3
            · push_cast
              omega
            · omega
        · injection hstep with e
          rw [← e]
          exact ⟨hs, hl⟩
      exact ih h2 hinv.1 hinv.2 h1 hh

lemma heappush_nonpos (n : Int) (hn : n ≤ 0) (x : AnalysisResult) : heappush n [] x = [] := by
  unfold heappush
  rw [if_neg (by
    simp only [List.length_nil, Nat.cast_zero]
    omega)]
  rfl

lemma walk_fold_empty (n : Int) (hn : n ≤ 0) (exts : List (List Char)) (quiet : Bool) :
    ∀ (files : List (String × List Char)) (h1 : List AnalysisResult),
    files.foldlM (walkStep n exts quiet) [] = some h1 → h1 = [] := by
  intro files
  induction files with
  | nil =>
    intro h1 hh
    simp only [List.foldlM_nil] at hh
    injection hh with e
    rw [← e]
  | cons f fs ih =>
    intro h1 hh
    simp only [List.foldlM_cons] at hh
    cases hstep : walkStep n exts quiet [] f with
    | none =>
      rw [hstep] at hh
      simp at hh
    | some h2 =>
      rw [hstep] at hh
      simp only [Option.bind_eq_bind, Option.some_bind] at hh
      have h2nil : h2 = [] := by
        unfold walkStep at hstep
        split_ifs at hstep
        · cases hana : analyze_file f.1 f.2 quiet with
          | none =>
            rw [hana] at hstep
            simp at hstep
          | some r =>
            rw [hana] at hstep
            simp only [Option.map_some'] at hstep
            injection hstep with e
            rw [← e, heappush_nonpos n hn r]
        · injection hstep with e
          rw [← e]
      rw [h2nil] at hh
      exact ih h1 hh

/-- C2 counterexample: with requested capacity 0 the walk surfaces no
configuration error: on a benign file it returns successfully with an
empty result list, and on a file whose scan faults the fault surfaces,
showing that scanning does begin despite the invalid capacity. -/
theorem walk_nonpositive_capacity_counterexample :
    walk_through_directory [("a.h", [ '{', '}' ])] 0 ["h".data] false = some [] ∧
      walk_through_directory [("a.h", [ '}', '}', '}', '{' ])] 0 ["h".data] false = none := by
  constructor
  · rfl
  · rfl

/-- C2 amended: a requested capacity K at most 0 is not rejected and not
reported: the walk runs (scan faults still propagate) and every offer is
discarded by the size check, so a successful walk returns the empty
result list. -/
theorem walk_nonpositive_capacity_empty (files : List (String × List Char)) (n : Int)
    (exts : List (List Char)) (quiet : Bool) (hn : n ≤ 0) (h : List AnalysisResult)
    (hw : walk_through_directory files n exts quiet = some h) : h = [] := by
  unfold walk_through_directory at hw
  exact walk_fold_empty n hn exts quiet files h hw

/-- C2 amended, witness: capacity 0 on a one-file tree. -/
theorem walk_nonpositive_capacity_empty_witness :
    ((0 : Int) ≤ 0 ∧
      walk_through_directory [("a.h", [ '{', '}' ])] 0 ["h".data] false = some []) ∧
      ([] : List AnalysisResult) = [] :=
  ⟨⟨by decide, by rfl⟩,
    walk_nonpositive_capacity_empty [("a.h", [ '{', '}' ])] 0 ["h".data] false
      (by decide) [] (by rfl)⟩

/-- C4: offering any sequence to a Selector of capacity K at least 1
leaves exactly min(K, number of offers) retained results, every element
offered more often than it is retained sorts no later than every
retained element, and on a full Selector the minimum is evicted when
and only when the offer is strictly greater than it. -/
theorem selector_offer_invariants (offers : List AnalysisResult) (K : Int) (hK : 1 ≤ K) :
    ((offers.foldl (heappush K) []).length : Int) = min K (offers.length : Int) ∧
      (∀ x, (offers.foldl (heappush K) []).count x < offers.count x →
        ∀ r ∈ offers.foldl (heappush K) [], resLe x r) ∧
      (∀ (x m : AnalysisResult) (t : List AnalysisResult),
        offers.foldl (heappush K) [] = m :: t →
        (((m :: t).length : Int) = K →
          (resLt m x → heappush K (m :: t) x = List.orderedInsert resLe x t) ∧
          (¬ resLt m x → heappush K (m :: t) x = m :: t))) := by
  obtain ⟨hs, hlen, hsub, hdef⟩ := selector_fold_inv K hK offers [] []
    List.sorted_nil
    (by
      simp only [List.length_nil, Nat.cast_zero]
      omega)
    List.nil_subperm
    (by
      intro x hx
      simp at hx)
  refine ⟨by simpa using hlen, by simpa using hdef, ?_⟩
  intro x m t hmt hcap
  constructor
  · intro hlt
    unfold heappush
    rw [if_neg (by omega)]
    simp only [heapqPushPop]
    rw [if_pos hlt]
  · intro hlt
    unfold heappush
    rw [if_neg (by omega)]
    simp only [heapqPushPop]
    rw [if_neg hlt]

/-- C5: after a directory walk, the heap drains in nondecreasing order
under the tuple ordering key, and with capacity at least 1 the printed
report of pretty_print_dir is exactly that full ascending drain. -/
theorem selector_drain_ascending_report_order (files : List (String × List Char)) (n : Int)
    (exts : List (List Char)) (quiet : Bool) (h : List AnalysisResult)
    (hw : walk_through_directory files n exts quiet = some h) :
    List.Pairwise resLe (drainAscending h) ∧
      (1 ≤ n → pretty_print_dir_results h n = drainAscending h) := by
  unfold walk_through_directory at hw
  obtain ⟨hs, hl⟩ := walk_fold_inv n exts quiet files [] List.sorted_nil
    (by
      simp only [List.length_nil, Nat.cast_zero]
      omega) h hw
  constructor
  · rw [drainAscending, popN_length_self]
    exact hs
  · intro hn
    unfold pretty_print_dir_results drainAscending
    congr 1
    omega

/-- C4 witness: two offers into a Selector of capacity one. -/
theorem selector_offer_invariants_witness :
    (1 : Int) ≤ 1 ∧
      (((([⟨1, [1], "", "b"⟩, ⟨2, [1, 1], "", "a"⟩] : List AnalysisResult).foldl
            (heappush 1) []).length : Int) =
          min 1 (([⟨1, [1], "", "b"⟩, ⟨2, [1, 1], "", "a"⟩] : List AnalysisResult).length : Int) ∧
        (∀ x, (([⟨1, [1], "", "b"⟩, ⟨2, [1, 1], "", "a"⟩] : List AnalysisResult).foldl
              (heappush 1) []).count x <
            ([⟨1, [1], "", "b"⟩, ⟨2, [1, 1], "", "a"⟩] : List AnalysisResult).count x →
          ∀ r ∈ ([⟨1, [1], "", "b"⟩, ⟨2, [1, 1], "", "a"⟩] : List AnalysisResult).foldl
              (heappush 1) [], resLe x r) ∧
        (∀ (x m : AnalysisResult) (t : List AnalysisResult),
          ([⟨1, [1], "", "b"⟩, ⟨2, [1, 1], "", "a"⟩] : List AnalysisResult).foldl
              (heappush 1) [] = m :: t →
          (((m :: t).length : Int) = 1 →
            (resLt m x → heappush 1 (m :: t) x = List.orderedInsert resLe x t) ∧
            (¬ resLt m x → heappush 1 (m :: t) x = m :: t)))) :=
  ⟨by norm_num,
    selector_offer_invariants [⟨1, [1], "", "b"⟩, ⟨2, [1, 1], "", "a"⟩] 1 (by norm_num)⟩

/-- C5 witness: a two-file walk with capacity five, quiet mode. -/
theorem selector_drain_ascending_report_order_witness :
    walk_through_directory [("b.h", [ '{', '}' ]), ("a.h", [ '{', '{', '}', '}' ])] 5
        ["h".data] true =
      some [⟨1, [1], "", "b.h"⟩, ⟨2, [1, 1], "", "a.h"⟩] ∧
      (List.Pairwise resLe
          (drainAscending [⟨1, [1], "", "b.h"⟩, ⟨2, [1, 1], "", "a.h"⟩]) ∧
        ((1 : Int) ≤ 5 →
          pretty_print_dir_results [⟨1, [1], "", "b.h"⟩, ⟨2, [1, 1], "", "a.h"⟩] 5 =
            drainAscending [⟨1, [1], "", "b.h"⟩, ⟨2, [1, 1], "", "a.h"⟩])) :=
  ⟨by rfl,
    selector_drain_ascending_report_order
      [("b.h", [ '{', '}' ]), ("a.h", [ '{', '{', '}', '}' ])] 5 ["h".data] true
      [⟨1, [1], "", "b.h"⟩, ⟨2, [1, 1], "", "a.h"⟩] (by rfl)⟩

lemma lowerStr_length (s : List Char) : (lowerStr s).length = s.length := by
  simp [lowerStr]

/-- The extension filter holds exactly when some extension of the set
appears, lower-cased, at the very end of the lower-cased name after a
literal dot with a nonempty stem before it. -/
lemma file_extension_supported_iff (exts : List (List Char)) (fname : List Char) :
    file_extension_supported exts fname = true ↔
      ∃ e ∈ exts, ∃ stem : List Char, stem ≠ [] ∧
        lowerStr fname = stem ++ '.' :: lowerStr e := by
  unfold file_extension_supported
  rw [List.any_eq_true]
  constructor
  · rintro ⟨e, he, hm⟩
    refine ⟨e, he, ?_⟩
    unfold extMatches at hm
    simp only [Bool.and_eq_true, decide_eq_true_eq] at hm
    obtain ⟨hlen, hdrop⟩ := hm
    refine ⟨(lowerStr fname).take ((lowerStr fname).length - ((lowerStr e).length + 1)),
      ?_, ?_⟩
    · intro hnil
      have hln := congrArg List.length hnil
      simp only [List.length_take, List.length_nil, lowerStr_length] at hln
      omega
    · rw [← hdrop]
      exact (List.take_append_drop _ _).symm
  · rintro ⟨e, he, stem, hstem, heq⟩
    refine ⟨e, he, ?_⟩
    unfold extMatches
    simp only [Bool.and_eq_true, decide_eq_true_eq]
    have hlen2 : fname.length = stem.length + (e.length + 1) := by
      have hln := congrArg List.length heq
      simp only [List.length_append, List.length_cons, lowerStr_length] at hln
      omega
    have hpos : 0 < stem.length := List.length_pos.mpr hstem
    constructor
    · omega
    · have hk : (lowerStr fname).length - ((lowerStr e).length + 1) = stem.length := by
        simp only [lowerStr_length]
        omega
      rw [hk, heq]
      exact List.drop_left stem ('.' :: lowerStr e)

/-- C6 counterexample: the name consisting of exactly a dot and the
extension h ends with a literal dot followed by the extension, so the
claim-side matcher selects it, but the program filter rejects it: the
pattern demands a character before the dot. -/
theorem extension_filter_suffix_iff_counterexample :
    specExtensionSelected [[ 'h' ]] [ '.', 'h' ] = true ∧
      file_extension_supported [[ 'h' ]] [ '.', 'h' ] = false := by
  constructor
  · rfl
  · rfl

/-- C6 amended: the walker selects a file exactly when its lower-cased
name splits as a nonempty stem, a literal dot, and the lower-cased
extension at the very end; the bare dot-extension name is excluded. -/
theorem extension_filter_characterization (exts : List (List Char)) (fname : List Char) :
    file_extension_supported exts fname = true ↔
      ∃ e ∈ exts, ∃ stem : List Char, stem ≠ [] ∧
        lowerStr fname = stem ++ '.' :: lowerStr e :=
  file_extension_supported_iff exts fname

/-- C10: for extension sets whose entries contain no dot, a file whose
entire name is a literal dot followed by one of the extensions is never
selected: a character must precede the dot. -/
theorem dot_extension_name_not_selected (exts : List (List Char)) (e : List Char)
    (hdot : ∀ x ∈ exts, '.' ∉ lowerStr x) (he : e ∈ exts) :
    file_extension_supported exts ('.' :: e) = false := by
  cases hb : file_extension_supported exts ('.' :: e) with
  | false => rfl
  | true =>
    exfalso
    obtain ⟨e1, he1, stem, hstem, heq⟩ := (file_extension_supported_iff exts ('.' :: e)).mp hb
    have hc : lowerChar '.' = '.' := by decide
    have hl : lowerStr ('.' :: e) = '.' :: lowerStr e := by
      unfold lowerStr
      rw [List.map_cons, hc]
    rw [hl] at heq
    cases stem with
    | nil => exact hstem rfl
    | cons a s =>
      simp only [List.cons_append] at heq
      injection heq with h1 h2
      have hmem : '.' ∈ lowerStr e := by
        rw [h2]
        exact List.mem_append_right s (List.mem_cons_self '.' (lowerStr e1))
      exact hdot e he hmem

/-- C10 witness: the name dot-h under the extension set containing h. -/
theorem dot_extension_name_not_selected_witness :
    ((∀ x ∈ [[ 'h' ]], '.' ∉ lowerStr x) ∧ [ 'h' ] ∈ [[ 'h' ]]) ∧
      file_extension_supported [[ 'h' ]] ('.' :: [ 'h' ]) = false :=
  ⟨⟨by decide, by decide⟩,
    dot_extension_name_not_selected [[ 'h' ]] [ 'h' ] (by decide) (by decide)⟩
